import Mathlib

/-!
# EPICS environment parameters (`src/libCom/envSubr.c`)

A shallow embedding of the routines of `envSubr.c` that read, print and set
configuration parameters, together with the C library routines they call
(`getenv`, `strcpy`, `strncpy`, `sscanf` with `%ld`, `inet_addr`, `putenv`,
`printf`), and theorems about them.

Conventions of the embedding.

* A C string is the list of its characters, terminator excluded.  A character
  of a string is never the terminator, so a buffer cell is either the
  terminator or a character (`Cell`).
* A routine that writes a caller's buffer takes the buffer's cells and returns
  the new cells.  A write outside the buffer is undefined in C; the embedding
  returns `none` for it.
* An uninitialised local array is a parameter (`junk`), one cell per index.
* Standard output is the list of characters written.  Where a routine prints
  an array that may hold no terminator, the output is an `Option`: `none` when
  the array does not determine what is printed.
* The width of `long`, the byte order and the `vxWorks` compilation switch are
  parameters.
-/

namespace EnvSubr

/-! ## Memory and strings -/

/-- One cell of a character buffer: the terminator or a character of a string. -/
inductive Cell where
  | nul : Cell
  | ch : Char → Cell
  deriving DecidableEq, Repr

/-- The string a buffer holds: its cells up to the first terminator.  The
routines apply it only to buffers that `envGetConfigParam`, `strcpy` or
`strcat` has terminated; for an array that may hold no terminator see
`readStr`. -/
def cstr : List Cell → List Char
  | [] => []
  | Cell.nul :: _ => []
  | Cell.ch c :: rest => c :: cstr rest

/-- The cells of a string, without a terminator. -/
def cells (s : List Char) : List Cell := s.map Cell.ch

/-- C `strlen`. -/
def strlen (s : List Char) : Nat := s.length

/-- C `strcpy(dst, src)`: the characters of `src` and a terminator overwrite
the front of `dst`. -/
def strcpy (dst : List Cell) (src : List Char) : Option (List Cell) :=
  if strlen src + 1 ≤ dst.length then
    some (cells src ++ Cell.nul :: dst.drop (strlen src + 1))
  else none

/-- C `strncpy(dst, src, n)`: exactly `n` cells are written, the characters of
`src` first, then terminators when `src` is shorter than `n`. -/
def strncpy (dst : List Cell) (src : List Char) (n : Nat) : Option (List Cell) :=
  if n ≤ dst.length then
    some ((cells src ++ List.replicate n Cell.nul).take n ++ dst.drop n)
  else none

/-- The assignment `buf[i] = c`. -/
def poke (buf : List Cell) (i : Nat) (c : Cell) : Option (List Cell) :=
  if i < buf.length then some (buf.set i c) else none

/-! ## The environment -/

/-- The process environment: the value bound to each name, if any. -/
abbrev Env := List Char → Option (List Char)

/-- C `getenv`: `none` is the null pointer. -/
def getenv (env : Env) (name : List Char) : Option (List Char) := env name

/-- The structure `ENV_PARAM` of `envDefs.h`: the fields the routines use. -/
structure ENV_PARAM where
  name : List Char
  dflt : List Char
  deriving DecidableEq, Repr

/-- The pointer `envGetConfigParam` returns: null, or the caller's buffer. -/
inductive Ptr where
  | null : Ptr
  | pBuf : Ptr
  deriving DecidableEq, Repr

/-! ## `envGetConfigParam` -/

/-- The routine `envGetConfigParam(pParam, bufDim, pBuf)`: the returned pointer
and the caller's buffer afterwards.  `bufDim` is a C `int`; a non-positive one
reaches `strncpy` with a count converted to `size_t`, which no buffer holds. -/
def envGetConfigParam (env : Env) (pParam : ENV_PARAM) (bufDim : Int)
    (pBuf : List Cell) : Option (Ptr × List Cell) :=
  let pEnv := match getenv env pParam.name with
    | none => pParam.dflt
    | some v => v
  if strlen pEnv ≤ 0 then some (Ptr.null, pBuf)
  else if (strlen pEnv : Int) < bufDim then
    match strcpy pBuf pEnv with
    | none => none
    | some b => some (Ptr.pBuf, b)
  else if bufDim - 1 < 0 then none
  else
    match strncpy pBuf pEnv (bufDim - 1).toNat with
    | none => none
    | some b1 =>
      match poke b1 (bufDim - 1).toNat Cell.nul with
      | none => none
      | some b2 => some (Ptr.pBuf, b2)

/-- The outcome of `envGetConfigParam` as a caller reads it: `none` when the
routine returned the null pointer, else the string in the buffer. -/
def getString (env : Env) (pParam : ENV_PARAM) (bufDim : Int)
    (pBuf : List Cell) : Option (Option (List Char)) :=
  match envGetConfigParam env pParam bufDim pBuf with
  | none => none
  | some (Ptr.null, _) => some none
  | some (Ptr.pBuf, b) => some (some (cstr b))

/-- The environment `env` with `name` bound to `value`. -/
def bindEnv (env : Env) (name value : List Char) : Env :=
  fun k => if k = name then some value else env k

/-- The environment that binds no name. -/
def noEnv : Env := fun _ => none

/-- An uninitialised array of `n` characters whose cell `i` holds `junk i`. -/
def localArray (n : Nat) (junk : Nat → Cell) : List Cell := (List.range n).map junk

/-! ## `sscanf` with `%ld` and `envGetLongConfigParam` -/

/-- C `isspace` in the "C" locale. -/
def isspace (c : Char) : Bool :=
  c = ' ' || c = Char.ofNat 9 || c = Char.ofNat 10 || c = Char.ofNat 11 ||
    c = Char.ofNat 12 || c = Char.ofNat 13

/-- C `isdigit`. -/
def isdigit (c : Char) : Bool := 48 ≤ c.toNat && c.toNat ≤ 57

/-- The value of a decimal digit. -/
def digitVal (c : Char) : Nat := c.toNat - 48

/-- The value of the longest run of decimal digits at the front of the input,
continuing from `acc`. -/
def scanDigits : Nat → List Char → Nat
  | acc, [] => acc
  | acc, c :: cs => if isdigit c then scanDigits (acc * 10 + digitVal c) cs else acc

/-- The least value of a `long` of `longBits` bits. -/
def longMin (longBits : Nat) : Int := -(2 ^ (longBits - 1) : Int)

/-- The greatest value of a `long` of `longBits` bits. -/
def longMax (longBits : Nat) : Int := (2 ^ (longBits - 1) : Int) - 1

/-- The value `strtol` delivers for a mathematical integer: out of range it is
the nearest bound of `long`. -/
def clampLong (longBits : Nat) (x : Int) : Int :=
  if x < longMin longBits then longMin longBits
  else if longMax longBits < x then longMax longBits
  else x

/-- C `sscanf(s, "%ld", pLong)`: the count returned and the caller's `long`
afterwards (`old` is its value before).  White space is skipped, then an
optional sign and a run of decimal digits are converted; whatever follows the
digits is left unread.  The count is `-1` (EOF) when the input ends before
anything is read and `0` when no digit is found. -/
def sscanf_ld (longBits : Nat) (s : List Char) (old : Int) : Int × Int :=
  match s.dropWhile isspace with
  | [] => (-1, old)
  | c :: cs =>
    if c = '-' then
      match cs with
      | [] => (0, old)
      | d :: _ =>
        if isdigit d then (1, clampLong longBits (-(scanDigits 0 cs : Int))) else (0, old)
    else if c = '+' then
      match cs with
      | [] => (0, old)
      | d :: _ =>
        if isdigit d then (1, clampLong longBits (scanDigits 0 cs : Int)) else (0, old)
    else if isdigit c then (1, clampLong longBits (scanDigits 0 (c :: cs) : Int))
    else (0, old)

/-- The output of `printf("illegal value for %s:%s\n", name, text)` for a
string `text`. -/
def illegalValueMsg (name text : List Char) : List Char :=
  "illegal value for ".toList ++ name ++ ":".toList ++ text ++ [Char.ofNat 10]

/-- The string `printf` reads under `%s` from an array: its characters up to
the first terminator, and `none` when the array holds no terminator.  The read
then runs past the array, and what it finds there is not a matter of the
array. -/
def readStr : List Cell → Option (List Char)
  | [] => none
  | Cell.nul :: _ => some []
  | Cell.ch c :: rest =>
    match readStr rest with
    | none => none
    | some s => some (c :: s)

/-- What `printf("illegal value for %s:%s\n", name, text)` writes when `text`
is the local array: `none` stands for an output the array does not determine
(see `readStr`). -/
def printIllegalValue (name : List Char) (text : List Cell) : Option (List Char) :=
  match readStr text with
  | none => none
  | some s => some (illegalValueMsg name s)

/-- The routine `envGetLongConfigParam(pParam, pLong)`: the status returned,
the caller's `long` afterwards (`pLong` is its value before) and the text
written to standard output (`some []` when nothing is printed, `none` when the
text is not determined, see `readStr`).  `junk` is the initial content of the
local array `text[128]`; `envGetConfigParam` leaves it as it is when it
returns the null pointer, and the message is printed from it all the same. -/
def envGetLongConfigParam (longBits : Nat) (env : Env) (pParam : ENV_PARAM)
    (pLong : Int) (junk : Nat → Cell) : Option (Int × Int × Option (List Char)) :=
  match envGetConfigParam env pParam 128 (localArray 128 junk) with
  | none => none
  | some (Ptr.null, text) => some (-1, pLong, printIllegalValue pParam.name text)
  | some (Ptr.pBuf, text) =>
    let r := sscanf_ld longBits (cstr text) pLong
    if r.1 = 1 then some (0, r.2, some [])
    else some (-1, r.2, printIllegalValue pParam.name text)

/-! ## `inet_addr` and `envGetInetAddrConfigParam` -/

/-- C `isxdigit`. -/
def isxdigit (c : Char) : Bool :=
  isdigit c || (97 ≤ c.toNat && c.toNat ≤ 102) || (65 ≤ c.toNat && c.toNat ≤ 70)

/-- The value of a hexadecimal digit. -/
def hexVal (c : Char) : Nat :=
  if isdigit c then c.toNat - 48
  else if 97 ≤ c.toNat then c.toNat - 87
  else c.toNat - 55

/-- The digits of the given base at the front of the input: their value,
continuing from `acc`, and the input that follows them. -/
def scanBase (base : Nat) : Nat → List Char → Nat × List Char
  | acc, [] => (acc, [])
  | acc, c :: cs =>
    if isxdigit c && decide (hexVal c < base) then scanBase base (acc * base + hexVal c) cs
    else (acc, c :: cs)

/-- C `strtoul(s, &end, 0)` on input that starts with a digit: the number and
the input left.  `0x` or `0X` before a hexadecimal digit starts a hexadecimal
number, another leading `0` an octal one, any other digit a decimal one. -/
def scanNumber (s : List Char) : Nat × List Char :=
  match s with
  | [] => (0, [])
  | c :: cs =>
    if c = '0' then
      match cs with
      | x :: h :: rest =>
        if (x = 'x' ∨ x = 'X') ∧ isxdigit h = true then scanBase 16 0 (h :: rest)
        else scanBase 8 0 s
      | _ => scanBase 8 0 s
    else scanBase 10 0 s

/-- The end of `inet_aton`: the last number read fills the bytes the parts
before it leave, and must fit in them.  The address is given most significant
byte first. -/
def atonFinish (parts : List Nat) (val : Nat) : Option Nat :=
  match parts with
  | [] => if val ≤ 0xFFFFFFFF then some val else none
  | [a] => if val ≤ 0xFFFFFF then some (a * 2 ^ 24 + val) else none
  | [a, b] => if val ≤ 0xFFFF then some (a * 2 ^ 24 + b * 2 ^ 16 + val) else none
  | [a, b, c] =>
    if val ≤ 0xFF then some (a * 2 ^ 24 + b * 2 ^ 16 + c * 2 ^ 8 + val) else none
  | _ => none

/-- The loop of the C library's `inet_aton` (4.4BSD, glibc).  Each round
needs a digit, reads a number as `strtoul` with base 0 does and rejects one
above 32 bits; after a dot the number is stored as a part (at most three parts,
each at most 255) and the loop goes on; at the end of the input or at white
space the loop ends, what follows the white space being ignored; any other
character is an error.  The first argument bounds the rounds: four are the
most the three parts allow. -/
def atonParts : Nat → List Nat → List Char → Option Nat
  | 0, _, _ => none
  | k + 1, parts, s =>
    match s with
    | [] => none
    | c :: _ =>
      if isdigit c then
        if 0xFFFFFFFF < (scanNumber s).1 then none
        else
          match (scanNumber s).2 with
          | [] => atonFinish parts (scanNumber s).1
          | t :: rest =>
            if t = '.' then
              if 2 < parts.length ∨ 0xFF < (scanNumber s).1 then none
              else atonParts k (parts ++ [(scanNumber s).1]) rest
            else if isspace t then atonFinish parts (scanNumber s).1
            else none
      else none

/-- The address a string denotes, most significant byte first, as the C
library's `inet_aton` reads it; `none` when it rejects the string. -/
def inet_aton (s : List Char) : Option Nat := atonParts 4 [] s

/-- C `htonl` on a 32-bit value: the identity on a big-endian host, the byte
swap on a little-endian one. -/
def htonl (littleEndian : Bool) (x : Nat) : Nat :=
  if littleEndian then
    x % 256 * 2 ^ 24 + x / 2 ^ 8 % 256 * 2 ^ 16 + x / 2 ^ 16 % 256 * 2 ^ 8 + x / 2 ^ 24 % 256
  else x

/-- The failure value of `inet_addr`, all 32 bits set. -/
def INADDR_NONE : Nat := 0xFFFFFFFF

/-- C `inet_addr`: the address in network byte order as an unsigned 32-bit
value of the host, or `INADDR_NONE` when the string is not an address. -/
def inet_addr (littleEndian : Bool) (s : List Char) : Nat :=
  match inet_aton s with
  | some v => htonl littleEndian v
  | none => INADDR_NONE

/-- The value of an `int` of 32 bits holding the 32 bits of `x`. -/
def toInt (x : Nat) : Int :=
  if x % 2 ^ 32 < 2 ^ 31 then ((x % 2 ^ 32 : Nat) : Int)
  else ((x % 2 ^ 32 : Nat) : Int) - 2 ^ 32

/-- The conversion of an integer to a `long` of `longBits` bits. -/
def toLong (longBits : Nat) (i : Int) : Int :=
  (i + 2 ^ (longBits - 1)) % 2 ^ longBits - 2 ^ (longBits - 1)

/-- The conversion of a `long` to the unsigned 32-bit field `s_addr`. -/
def toAddr (x : Int) : Nat := (x % 2 ^ 32).toNat

/-- The routine `envGetInetAddrConfigParam(pParam, pAddr)`: the status
returned, the caller's `s_addr` afterwards (`pAddr` is its value before) and the
text written to standard output, as for `envGetLongConfigParam`.  `junk` is the
initial content of the local array `text[128]`.

None of the system headers the file includes (`stdio.h`, `stdlib.h`,
`string.h`, `sys/types.h`, `netinet/in.h`) declares `inet_addr`, so the call is to an
implicitly declared function and its result is an `int`: `status` is the
32-bit value read as a signed number, then converted to `long`.  (Under
`vxWorks` and `_WINDOWS` the included header declares the result an unsigned
long of 32 bits, assigned to a `long` of 32 bits: the same value.) -/
def envGetInetAddrConfigParam (longBits : Nat) (littleEndian : Bool) (env : Env)
    (pParam : ENV_PARAM) (pAddr : Nat) (junk : Nat → Cell) :
    Option (Int × Nat × Option (List Char)) :=
  match envGetConfigParam env pParam 128 (localArray 128 junk) with
  | none => none
  | some (Ptr.null, text) => some (-1, pAddr, printIllegalValue pParam.name text)
  | some (Ptr.pBuf, text) =>
    let status := toLong longBits (toInt (inet_addr littleEndian (cstr text)))
    if status ≠ -1 then some (0, toAddr status, some [])
    else some (-1, pAddr, printIllegalValue pParam.name text)

/-! ## `envPrtConfigParam` -/

/-- The routine `envPrtConfigParam(pParam)`: the status returned and the text
written to standard output.  `junk` is the initial content of the local array
`text[80]`. -/
def envPrtConfigParam (env : Env) (pParam : ENV_PARAM) (junk : Nat → Cell) :
    Option (Int × List Char) :=
  match envGetConfigParam env pParam 80 (localArray 80 junk) with
  | none => none
  | some (Ptr.null, _) => some (0, pParam.name ++ " is undefined".toList ++ [Char.ofNat 10])
  | some (Ptr.pBuf, text) =>
    some (0, pParam.name ++ ": ".toList ++ cstr text ++ [Char.ofNat 10])

/-! ## `putenv` and `envSetConfigParam` -/

/-- C `strcat(dst, src)`: `src` and a terminator are written where the string
in `dst` ends. -/
def strcat (dst : List Cell) (src : List Char) : Option (List Cell) :=
  let n := strlen (cstr dst)
  if n + strlen src + 1 ≤ dst.length then
    some (dst.take n ++ (cells src ++ Cell.nul :: dst.drop (n + strlen src + 1)))
  else none

/-- The part of a string before its first `=` and the part after it; `none`
when the string has no `=`. -/
def splitEq : List Char → Option (List Char × List Char)
  | [] => none
  | c :: cs =>
    if c = '=' then some ([], cs)
    else
      match splitEq cs with
      | none => none
      | some (n, v) => some (c :: n, v)

/-- The `putenv` of vxWorks on a string `name=value`: the status and the
environment afterwards.  The string is copied, so the caller may free it.
`ok` says whether the routine finds the memory it needs. -/
def putenv (ok : Bool) (env : Env) (s : List Char) : Int × Env :=
  if ok then
    match splitEq s with
    | some (n, v) => (0, bindEnv env n v)
    | none => (-1, env)
  else (-1, env)

/-- What `envSetConfigParam` leaves behind: the status returned, the
environment, the text written to standard output, and the parameter names and
values reported through `errPrintf`. -/
structure SetResult where
  ret : Int
  env : Env
  out : List Char
  errs : List (List Char × List Char)

/-- The routine `envSetConfigParam(pParam, value)`.  `vxWorks` is the
compilation switch; `mallocOk` and `putenvOk` say whether `malloc` and `putenv`
succeed; `heap` is the initial content of the block `malloc` returns. -/
def envSetConfigParam (vxWorks mallocOk putenvOk : Bool) (heap : Nat → Cell)
    (env : Env) (pParam : ENV_PARAM) (value : List Char) : Option SetResult :=
  if !vxWorks then
    some ⟨-1, env,
      "envSetConfigParam can only be used under vxWorks".toList ++ [Char.ofNat 10], []⟩
  else if !mallocOk then
    some ⟨-1, env, [], [(pParam.name, value)]⟩
  else
    let pEnv := localArray (strlen pParam.name + strlen value + 2) heap
    match strcpy pEnv pParam.name with
    | none => none
    | some b1 =>
      match strcat b1 "=".toList with
      | none => none
      | some b2 =>
        match strcat b2 value with
        | none => none
        | some b3 =>
          let r := putenv putenvOk env (cstr b3)
          if r.1 < 0 then some ⟨-1, r.2, [], [(pParam.name, value)]⟩
          else some ⟨0, r.2, [], []⟩

/-! ## Notions the statements use -/

/-- The text a parameter resolves to: what `getenv` finds for its name, and its
default when the name is not bound. -/
def resolved (env : Env) (pParam : ENV_PARAM) : List Char :=
  match getenv env pParam.name with
  | none => pParam.dflt
  | some v => v

/-- What a buffer of dimension `bufDim` keeps of a string: all of it when it
is shorter than `bufDim`, else its first `bufDim - 1` characters. -/
def truncated (bufDim : Int) (v : List Char) : List Char :=
  if (v.length : Int) < bufDim then v else v.take (bufDim - 1).toNat

/-- The base-10 literal of an integer: a minus sign for a negative one, then
the decimal digits of its absolute value. -/
def decimal (n : Int) : List Char :=
  if n < 0 then '-' :: Nat.toDigits 10 n.natAbs else Nat.toDigits 10 n.natAbs

/-- The dotted-quad text of four numbers. -/
def dottedQuad (a b c d : Nat) : List Char :=
  Nat.toDigits 10 a ++ '.' :: (Nat.toDigits 10 b ++ '.' :: (Nat.toDigits 10 c ++
    '.' :: Nat.toDigits 10 d))

/-- The text begins, after optional white space, with an optional sign and a
decimal digit. -/
def BeginsWithInteger (t : List Char) : Prop :=
  ∃ ws sign d rest, t = ws ++ (sign ++ d :: rest) ∧ (∀ x ∈ ws, isspace x = true) ∧
    (sign = [] ∨ sign = ['+'] ∨ sign = ['-']) ∧ isdigit d = true

set_option maxRecDepth 100000

/-! ## Buffers -/

theorem cstr_cells_nul (s : List Char) (rest : List Cell) :
    cstr (cells s ++ Cell.nul :: rest) = s := by
  induction s with
  | nil => rfl
  | cons c cs ih => simpa [cells, cstr] using ih

theorem cells_take (s : List Char) (n : Nat) : (cells s).take n = cells (s.take n) := by
  simp [cells, List.map_take]

theorem length_cells (s : List Char) : (cells s).length = s.length := by
  simp [cells]

theorem strncpy_long (dst : List Cell) (src : List Char) (n : Nat)
    (hn : n ≤ dst.length) (hs : n ≤ src.length) :
    strncpy dst src n = some (cells (src.take n) ++ dst.drop n) := by
  unfold strncpy
  rw [if_pos hn, List.take_append_of_le_length (by simpa [length_cells] using hs), cells_take]

theorem poke_at_end (pre dst : List Cell) (n : Nat) (hpre : pre.length = n)
    (hn : n < dst.length) :
    poke (pre ++ dst.drop n) n Cell.nul = some (pre ++ Cell.nul :: dst.drop (n + 1)) := by
  unfold poke
  have hlen : n < (pre ++ dst.drop n).length := by
    simp [hpre]; omega
  rw [if_pos hlen]
  congr 1
  rw [List.set_append_right _ _ (by omega)]
  congr 1
  rw [hpre, Nat.sub_self]
  cases hd : dst.drop n with
  | nil =>
    have := congrArg List.length hd
    simp at this; omega
  | cons x xs =>
    have h2 : dst.drop (n + 1) = xs := by
      have := congrArg List.tail hd
      simpa [List.tail_drop] using this
    simp [h2]

/-! ## `envGetConfigParam` -/

/-- With an empty resolved text the routine returns the null pointer and does
not touch the buffer. -/
theorem envGetConfigParam_empty (env : Env) (p : ENV_PARAM) (bufDim : Int)
    (pBuf : List Cell) (h : resolved env p = []) :
    envGetConfigParam env p bufDim pBuf = some (Ptr.null, pBuf) := by
  unfold resolved at h
  unfold envGetConfigParam
  simp only [h, strlen, List.length_nil, le_refl, if_true]

/-- With a non-empty resolved text and a buffer of at least `bufDim ≥ 1` cells
the routine returns the buffer, holding the text truncated to the dimension. -/
theorem envGetConfigParam_nonempty (env : Env) (p : ENV_PARAM) (bufDim : Int)
    (pBuf : List Cell) (hdim : 1 ≤ bufDim) (hbuf : bufDim ≤ pBuf.length)
    (h : resolved env p ≠ []) :
    ∃ b, envGetConfigParam env p bufDim pBuf = some (Ptr.pBuf, b) ∧
      cstr b = truncated bufDim (resolved env p) := by
  unfold resolved at h
  unfold envGetConfigParam truncated resolved
  generalize (match getenv env p.name with | none => p.dflt | some v => v) = v at h ⊢
  have hpos : 0 < v.length := List.length_pos.mpr h
  have h0 : ¬ strlen v ≤ 0 := by unfold strlen; omega
  simp only [h0, if_false]
  by_cases hlt : (v.length : Int) < bufDim
  · have hfit : v.length + 1 ≤ pBuf.length := by omega
    simp only [strlen, hlt, if_true]
    simp only [strcpy, strlen, hfit, if_true]
    exact ⟨_, rfl, cstr_cells_nul _ _⟩
  · have hnn : ¬ bufDim - 1 < 0 := by omega
    simp only [strlen, hlt, hnn, if_false]
    have hn : (bufDim - 1).toNat ≤ pBuf.length := by omega
    have hs : (bufDim - 1).toNat ≤ v.length := by omega
    rw [strncpy_long pBuf v _ hn hs]
    simp only []
    have hpre : (cells (v.take (bufDim - 1).toNat)).length = (bufDim - 1).toNat := by
      rw [length_cells, List.length_take]; omega
    rw [poke_at_end _ pBuf _ hpre (by omega)]
    exact ⟨_, rfl, cstr_cells_nul _ _⟩

/-- The outcome of `envGetConfigParam` in terms of the resolved text. -/
theorem getString_eq (env : Env) (p : ENV_PARAM) (bufDim : Int) (pBuf : List Cell)
    (hdim : 1 ≤ bufDim) (hbuf : bufDim ≤ pBuf.length) :
    getString env p bufDim pBuf =
      some (if resolved env p = [] then none else some (truncated bufDim (resolved env p))) := by
  unfold getString
  by_cases h : resolved env p = []
  · rw [envGetConfigParam_empty env p bufDim pBuf h, if_pos h]
  · obtain ⟨b, hb, hc⟩ := envGetConfigParam_nonempty env p bufDim pBuf hdim hbuf h
    rw [hb, if_neg h]
    simp only [hc]

theorem resolved_bound (env : Env) (p : ENV_PARAM) (v : List Char)
    (hv : getenv env p.name = some v) : resolved env p = v := by
  unfold resolved
  rw [hv]

theorem resolved_unbound (env : Env) (p : ENV_PARAM)
    (hv : getenv env p.name = none) : resolved env p = p.dflt := by
  unfold resolved
  rw [hv]

theorem length_localArray (n : Nat) (junk : Nat → Cell) : (localArray n junk).length = n := by
  simp [localArray]

/-- C1 (amended): when the parameter's name is bound in the environment to a
value `v` and the buffer has at least `bufDim ≥ 1` cells, `envGetConfigParam`
returns the null pointer if `v` is empty, and otherwise returns the buffer
holding `v` when `len(v) < bufDim` and the first `bufDim - 1` characters of `v`
when not; in every case the outcome is the same for every default. -/
theorem envGetConfigParam_override (env : Env) (p : ENV_PARAM) (bufDim : Int)
    (pBuf : List Cell) (v : List Char) (hdim : 1 ≤ bufDim) (hbuf : bufDim ≤ pBuf.length)
    (hv : getenv env p.name = some v) :
    getString env p bufDim pBuf =
        some (if v = [] then none
          else some (if (v.length : Int) < bufDim then v else v.take (bufDim - 1).toNat)) ∧
      ∀ d : List Char, getString env ⟨p.name, d⟩ bufDim pBuf = getString env p bufDim pBuf := by
  constructor
  · rw [getString_eq env p bufDim pBuf hdim hbuf, resolved_bound env p v hv]
    rfl
  · intro d
    rw [getString_eq env p bufDim pBuf hdim hbuf, getString_eq env _ bufDim pBuf hdim hbuf,
      resolved_bound env p v hv, resolved_bound env ⟨p.name, d⟩ v hv]

/-- C1, witness: the name `X` bound to `hello`, a buffer of three cells. -/
theorem envGetConfigParam_override_witness :
    getString (bindEnv noEnv ['X'] ['h', 'e', 'l', 'l', 'o']) ⟨['X'], ['d']⟩ 3
        (localArray 3 (fun _ => Cell.ch 'z')) = some (some ['h', 'e']) ∧
      ∀ d : List Char,
        getString (bindEnv noEnv ['X'] ['h', 'e', 'l', 'l', 'o']) ⟨['X'], d⟩ 3
            (localArray 3 (fun _ => Cell.ch 'z')) =
          getString (bindEnv noEnv ['X'] ['h', 'e', 'l', 'l', 'o']) ⟨['X'], ['d']⟩ 3
            (localArray 3 (fun _ => Cell.ch 'z')) :=
  envGetConfigParam_override (bindEnv noEnv ['X'] ['h', 'e', 'l', 'l', 'o']) ⟨['X'], ['d']⟩ 3
    (localArray 3 (fun _ => Cell.ch 'z')) ['h', 'e', 'l', 'l', 'o'] (by decide) (by decide) rfl

/-- C1, counterexample: with the name `X` bound to the empty string the routine
returns the null pointer, not the (empty) override. -/
theorem envGetConfigParam_override_counterexample :
    getenv (bindEnv noEnv ['X'] []) ['X'] = some [] ∧
      getString (bindEnv noEnv ['X'] []) ⟨['X'], ['d']⟩ 80
        (localArray 80 (fun _ => Cell.ch 'z')) = some none ∧
      getString (bindEnv noEnv ['X'] []) ⟨['X'], ['d']⟩ 80
        (localArray 80 (fun _ => Cell.ch 'z')) ≠ some (some []) := by
  decide

/-- C2: when the parameter's name is not bound in the environment, its default
`d` is not empty and the buffer has at least `bufDim ≥ 1` cells,
`envGetConfigParam` returns the buffer (not the null pointer), and the buffer
holds `d` when `len(d) < bufDim` and the first `bufDim - 1` characters of `d`
otherwise. -/
theorem envGetConfigParam_default (env : Env) (p : ENV_PARAM) (bufDim : Int)
    (pBuf : List Cell) (hdim : 1 ≤ bufDim) (hbuf : bufDim ≤ pBuf.length)
    (hunbound : getenv env p.name = none) (hd : p.dflt ≠ []) :
    ∃ b, envGetConfigParam env p bufDim pBuf = some (Ptr.pBuf, b) ∧
      cstr b = if (p.dflt.length : Int) < bufDim then p.dflt
        else p.dflt.take (bufDim - 1).toNat := by
  have hr := resolved_unbound env p hunbound
  obtain ⟨b, hb, hc⟩ := envGetConfigParam_nonempty env p bufDim pBuf hdim hbuf (by rw [hr]; exact hd)
  refine ⟨b, hb, ?_⟩
  rw [hc, hr]
  rfl

/-- C2, witness: the default `abc`, no binding, a buffer of three cells. -/
theorem envGetConfigParam_default_witness :
    ∃ b, envGetConfigParam noEnv ⟨['X'], ['a', 'b', 'c']⟩ 3
        (localArray 3 (fun _ => Cell.ch 'z')) = some (Ptr.pBuf, b) ∧
      cstr b = if ((['a', 'b', 'c'] : List Char).length : Int) < 3 then ['a', 'b', 'c']
        else (['a', 'b', 'c'] : List Char).take ((3 : Int) - 1).toNat :=
  envGetConfigParam_default noEnv ⟨['X'], ['a', 'b', 'c']⟩ 3
    (localArray 3 (fun _ => Cell.ch 'z')) (by decide) (by decide) rfl (by decide)

/-- C3 (amended): when the parameter's name is bound in the environment to the
empty string, `envGetConfigParam` returns the null pointer and leaves the
buffer as it was, whatever the default and the dimension. -/
theorem envGetConfigParam_empty_override (env : Env) (p : ENV_PARAM) (bufDim : Int)
    (pBuf : List Cell) (hv : getenv env p.name = some []) :
    envGetConfigParam env p bufDim pBuf = some (Ptr.null, pBuf) :=
  envGetConfigParam_empty env p bufDim pBuf (resolved_bound env p [] hv)

/-- C3, witness: the name `X` bound to the empty string, the default `d`. -/
theorem envGetConfigParam_empty_override_witness :
    envGetConfigParam (bindEnv noEnv ['X'] []) ⟨['X'], ['d']⟩ 2 [Cell.ch 'y', Cell.ch 'z'] =
      some (Ptr.null, [Cell.ch 'y', Cell.ch 'z']) :=
  envGetConfigParam_empty_override (bindEnv noEnv ['X'] []) ⟨['X'], ['d']⟩ 2
    [Cell.ch 'y', Cell.ch 'z'] rfl

/-- C3, counterexample: the name `X` is bound to the empty string and the
default is `d`; the routine does not fall back to `d`. -/
theorem envGetConfigParam_empty_override_counterexample :
    getenv (bindEnv noEnv ['X'] []) ['X'] = some [] ∧
      (⟨['X'], ['d']⟩ : ENV_PARAM).dflt ≠ [] ∧
      getString (bindEnv noEnv ['X'] []) ⟨['X'], ['d']⟩ 2 [Cell.ch 'y', Cell.ch 'z'] ≠
        some (some ['d']) := by
  decide

/-- C10: with no binding and the empty default the routine returns the null
pointer and the buffer still holds what it held before (here `zz`): no
terminator is copied into its first cell. -/
theorem envGetConfigParam_absent_buffer :
    envGetConfigParam noEnv ⟨['D', 'I', 'S', 'P', 'L', 'A', 'Y'], []⟩ 3
        [Cell.ch 'z', Cell.ch 'z', Cell.nul] =
      some (Ptr.null, [Cell.ch 'z', Cell.ch 'z', Cell.nul]) ∧
    cstr [Cell.ch 'z', Cell.ch 'z', Cell.nul] ≠ [] := by
  decide

/-! ## `envPrtConfigParam` -/

/-- C9 (amended): `envPrtConfigParam` returns 0 and writes one text to standard
output: `<name> is undefined` and a newline when the resolved text (the value
bound in the environment, else the default) is empty, and otherwise `<name>: `,
the resolved text cut to its first 79 characters, and a newline. -/
theorem envPrtConfigParam_output (env : Env) (p : ENV_PARAM) (junk : Nat → Cell) :
    envPrtConfigParam env p junk =
      some (0,
        if resolved env p = [] then p.name ++ " is undefined".toList ++ [Char.ofNat 10]
        else p.name ++ ": ".toList ++ (resolved env p).take 79 ++ [Char.ofNat 10]) := by
  unfold envPrtConfigParam
  by_cases h : resolved env p = []
  · rw [envGetConfigParam_empty env p 80 _ h, if_pos h]
  · obtain ⟨b, hb, hc⟩ := envGetConfigParam_nonempty env p 80 (localArray 80 junk)
      (by decide) (by rw [length_localArray]; decide) h
    rw [hb, if_neg h]
    simp only [hc, truncated]
    by_cases hl : ((resolved env p).length : Int) < 80
    · rw [if_pos hl, List.take_of_length_le (by omega)]
    · rw [if_neg hl]
      rfl

/-- C9, counterexample: a default of 80 characters is not printed whole. -/
theorem envPrtConfigParam_counterexample :
    envPrtConfigParam noEnv ⟨['X'], List.replicate 80 'a'⟩ (fun _ => Cell.nul) ≠
      some (0, ['X'] ++ ": ".toList ++ List.replicate 80 'a' ++ [Char.ofNat 10]) ∧
    envPrtConfigParam noEnv ⟨['X'], List.replicate 80 'a'⟩ (fun _ => Cell.nul) =
      some (0, ['X'] ++ ": ".toList ++ List.replicate 79 'a' ++ [Char.ofNat 10]) := by
  decide

/-! ## `envSetConfigParam` -/

theorem cells_append (s t : List Char) : cells (s ++ t) = cells s ++ cells t := by
  simp [cells]

theorem take_cstr (dst : List Cell) : dst.take (cstr dst).length = cells (cstr dst) := by
  induction dst with
  | nil => rfl
  | cons c rest ih =>
    cases c with
    | nul => rfl
    | ch x => simpa [cstr, cells] using ih

theorem strcpy_spec (dst : List Cell) (src : List Char) (h : src.length + 1 ≤ dst.length) :
    ∃ b, strcpy dst src = some b ∧ cstr b = src ∧ b.length = dst.length := by
  refine ⟨cells src ++ Cell.nul :: dst.drop (src.length + 1), ?_, cstr_cells_nul _ _, ?_⟩
  · simp only [strcpy, strlen, h, if_true]
  · simp only [List.length_append, length_cells, List.length_cons, List.length_drop]
    omega

theorem strcat_spec (dst : List Cell) (src : List Char)
    (h : (cstr dst).length + src.length + 1 ≤ dst.length) :
    ∃ b, strcat dst src = some b ∧ cstr b = cstr dst ++ src ∧ b.length = dst.length := by
  refine ⟨dst.take (cstr dst).length ++
    (cells src ++ Cell.nul :: dst.drop ((cstr dst).length + src.length + 1)), ?_, ?_, ?_⟩
  · simp only [strcat, strlen, h, if_true]
  · rw [take_cstr, ← List.append_assoc, ← cells_append, cstr_cells_nul]
  · simp only [List.length_append, length_cells, List.length_cons, List.length_drop,
      List.length_take]
    omega

theorem splitEq_append (n v : List Char) (hn : '=' ∉ n) :
    splitEq (n ++ '=' :: v) = some (n, v) := by
  induction n with
  | nil => simp [splitEq]
  | cons c cs ih =>
    have hc : c ≠ '=' := fun h => hn (by simp [h])
    have hcs : '=' ∉ cs := fun h => hn (by simp [h])
    simp [splitEq, hc, ih hcs]

/-- Under vxWorks, with `malloc` and `putenv` succeeding and a name without
`=`, `envSetConfigParam` returns 0 and binds the name to the value. -/
theorem envSetConfigParam_vxWorks (heap : Nat → Cell) (env : Env) (p : ENV_PARAM)
    (v : List Char) (hname : '=' ∉ p.name) :
    ∃ r, envSetConfigParam true true true heap env p v = some r ∧ r.ret = 0 ∧
      r.env = bindEnv env p.name v := by
  unfold envSetConfigParam
  simp only [Bool.not_true, Bool.false_eq_true, if_false, strlen]
  obtain ⟨b1, h1, c1, l1⟩ := strcpy_spec (localArray (p.name.length + v.length + 2) heap) p.name
    (by rw [length_localArray]; omega)
  rw [length_localArray] at l1
  obtain ⟨b2, h2, c2, l2⟩ := strcat_spec b1 "=".toList (by rw [c1, l1]; simp)
  obtain ⟨b3, h3, c3, _⟩ := strcat_spec b2 v (by rw [c2, c1, l2, l1]; simp; omega)
  rw [h1]
  simp only [h2, h3, c3, c2, c1]
  have hs : splitEq (p.name ++ "=".toList ++ v) = some (p.name, v) := by
    have := splitEq_append p.name v hname
    simpa using this
  simp only [putenv, if_true, hs]
  exact ⟨⟨0, bindEnv env p.name v, [], []⟩, by simp, rfl, rfl⟩

theorem getenv_bindEnv (env : Env) (name v : List Char) :
    getenv (bindEnv env name v) name = some v := by
  simp [getenv, bindEnv]

/-- C4 (amended): under vxWorks, with `malloc` and `putenv` succeeding, for a
parameter whose name contains no `=` and every value `v`,
`envSetConfigParam(p, v)` returns 0, and a following `envGetConfigParam` into a
buffer of at least `bufDim ≥ 1` cells returns the null pointer when `v` is
empty and otherwise the buffer, holding `v` when `len(v) < bufDim` and the
first `bufDim - 1` characters of `v` when not. -/
theorem envSetConfigParam_roundtrip (heap : Nat → Cell) (env : Env) (p : ENV_PARAM)
    (v : List Char) (bufDim : Int) (pBuf : List Cell) (hname : '=' ∉ p.name)
    (hdim : 1 ≤ bufDim) (hbuf : bufDim ≤ pBuf.length) :
    ∃ r, envSetConfigParam true true true heap env p v = some r ∧ r.ret = 0 ∧
      getString r.env p bufDim pBuf =
        some (if v = [] then none
          else some (if (v.length : Int) < bufDim then v else v.take (bufDim - 1).toNat)) := by
  obtain ⟨r, hr, h0, he⟩ := envSetConfigParam_vxWorks heap env p v hname
  refine ⟨r, hr, h0, ?_⟩
  rw [he, getString_eq _ p bufDim pBuf hdim hbuf,
    resolved_bound _ p v (getenv_bindEnv env p.name v)]
  rfl

/-- C4, witness: the parameter `TZ` set to `360` and read into four cells. -/
theorem envSetConfigParam_roundtrip_witness :
    ∃ r, envSetConfigParam true true true (fun _ => Cell.ch 'q') noEnv ⟨['T', 'Z'], []⟩
        ['3', '6', '0'] = some r ∧ r.ret = 0 ∧
      getString r.env ⟨['T', 'Z'], []⟩ 4 (localArray 4 (fun _ => Cell.ch 'z')) =
        some (if (['3', '6', '0'] : List Char) = [] then none
          else some (if ((['3', '6', '0'] : List Char).length : Int) < 4 then ['3', '6', '0']
            else (['3', '6', '0'] : List Char).take ((4 : Int) - 1).toNat)) :=
  envSetConfigParam_roundtrip (fun _ => Cell.ch 'q') noEnv ⟨['T', 'Z'], []⟩ ['3', '6', '0'] 4
    (localArray 4 (fun _ => Cell.ch 'z')) (by decide) (by decide) (by decide)

/-- C4, counterexample: under vxWorks, with `malloc` and `putenv` succeeding,
the value `360` read back into a buffer of dimension 2 is `3`, and the empty
value read back is the null pointer. -/
theorem envSetConfigParam_roundtrip_counterexample :
    (envSetConfigParam true true true (fun _ => Cell.ch 'q') noEnv ⟨['T', 'Z'], []⟩
        ['3', '6', '0']).map
      (fun r => (r.ret, getString r.env ⟨['T', 'Z'], []⟩ 2 [Cell.nul, Cell.nul])) =
        some (0, some (some ['3'])) ∧
    (envSetConfigParam true true true (fun _ => Cell.ch 'q') noEnv ⟨['T', 'Z'], []⟩ []).map
      (fun r => (r.ret, getString r.env ⟨['T', 'Z'], []⟩ 80 (localArray 80 (fun _ => Cell.nul)))) =
        some (0, some none) := by
  decide

/-! ## Decimal digits -/

theorem isdigit_digitChar (k : Nat) (hk : k < 10) : isdigit (Nat.digitChar k) = true := by
  interval_cases k <;> rfl

theorem digitVal_digitChar (k : Nat) (hk : k < 10) : digitVal (Nat.digitChar k) = k := by
  interval_cases k <;> rfl

theorem digitChar_ne_zero (k : Nat) (h0 : 0 < k) (hk : k < 10) : Nat.digitChar k ≠ '0' := by
  interval_cases k <;> decide

/-- The digits `Nat.toDigitsCore` puts in front of its accumulator: decimal
digits whose value read from the left is `n`, without a leading zero. -/
theorem toDigitsCore_spec (n : Nat) :
    ∀ fuel ds, n < fuel → ∃ L, Nat.toDigitsCore 10 fuel n ds = L ++ ds ∧ L ≠ [] ∧
      (∀ c ∈ L, isdigit c = true) ∧
      (∀ acc, L.foldl (fun a c => a * 10 + digitVal c) acc = acc * 10 ^ L.length + n) ∧
      (0 < n → L.head? ≠ some '0') := by
  induction n using Nat.strong_induction_on with
  | _ n ih =>
    intro fuel ds hf
    cases fuel with
    | zero => omega
    | succ f =>
      have hmod : n % 10 < 10 := Nat.mod_lt _ (by decide)
      by_cases hq : n / 10 = 0
      · refine ⟨[Nat.digitChar (n % 10)], ?_, by simp, ?_, ?_, ?_⟩
        · simp [Nat.toDigitsCore, hq]
        · intro c hc
          rw [List.mem_singleton] at hc
          rw [hc]
          exact isdigit_digitChar _ hmod
        · intro acc
          simp only [List.foldl, List.length_singleton, pow_one, digitVal_digitChar _ hmod]
          omega
        · intro hpos
          simp only [List.head?, ne_eq, Option.some.injEq]
          exact digitChar_ne_zero _ (by omega) hmod
      · obtain ⟨L, hL, hne, hdig, hval, hhead⟩ := ih (n / 10) (by omega) f
          (Nat.digitChar (n % 10) :: ds) (by omega)
        refine ⟨L ++ [Nat.digitChar (n % 10)], ?_, by simp, ?_, ?_, ?_⟩
        · simp [Nat.toDigitsCore, hq, hL]
        · intro c hc
          rw [List.mem_append, List.mem_singleton] at hc
          rcases hc with hc | hc
          · exact hdig c hc
          · rw [hc]
            exact isdigit_digitChar _ hmod
        · intro acc
          rw [List.foldl_append, hval acc]
          simp only [List.foldl, List.length_append, List.length_singleton,
            digitVal_digitChar _ hmod, pow_succ]
          have := Nat.div_add_mod n 10
          nlinarith [this]
        · intro _
          cases L with
          | nil => exact absurd rfl hne
          | cons x xs => exact hhead (by omega)

theorem toDigits_ne_nil (n : Nat) : Nat.toDigits 10 n ≠ [] := by
  obtain ⟨L, hL, hne, _, _, _⟩ := toDigitsCore_spec n (n + 1) [] (by omega)
  rw [Nat.toDigits, hL, List.append_nil]
  exact hne

theorem toDigits_isdigit (n : Nat) : ∀ c ∈ Nat.toDigits 10 n, isdigit c = true := by
  obtain ⟨L, hL, _, hdig, _, _⟩ := toDigitsCore_spec n (n + 1) [] (by omega)
  rw [Nat.toDigits, hL, List.append_nil]
  exact hdig

theorem toDigits_foldl (n acc : Nat) :
    (Nat.toDigits 10 n).foldl (fun a c => a * 10 + digitVal c) acc =
      acc * 10 ^ (Nat.toDigits 10 n).length + n := by
  obtain ⟨L, hL, _, _, hval, _⟩ := toDigitsCore_spec n (n + 1) [] (by omega)
  rw [Nat.toDigits, hL, List.append_nil]
  exact hval acc

theorem toDigits_head (n : Nat) (hn : 0 < n) : (Nat.toDigits 10 n).head? ≠ some '0' := by
  obtain ⟨L, hL, _, _, _, hhead⟩ := toDigitsCore_spec n (n + 1) [] (by omega)
  rw [Nat.toDigits, hL, List.append_nil]
  exact hhead hn

theorem toDigits_length_le (n e : Nat) (hlt : n < 10 ^ e) (he : 0 < e) :
    (Nat.toDigits 10 n).length ≤ e :=
  Nat.toDigitsCore_length 10 (by decide) (n + 1) n e hlt he

theorem scanDigits_digits (L : List Char) (hL : ∀ c ∈ L, isdigit c = true) :
    ∀ acc, scanDigits acc L = L.foldl (fun a c => a * 10 + digitVal c) acc := by
  induction L with
  | nil => intro acc; rfl
  | cons c cs ih =>
    intro acc
    have hc : isdigit c = true := hL c (by simp)
    simp only [scanDigits, hc, if_true, List.foldl]
    exact ih (fun x hx => hL x (by simp [hx])) _

theorem scanDigits_toDigits (n : Nat) : scanDigits 0 (Nat.toDigits 10 n) = n := by
  rw [scanDigits_digits _ (toDigits_isdigit n), toDigits_foldl]
  omega

/-! ## `envGetLongConfigParam` -/

theorem isdigit_not_special (c : Char) (h : isdigit c = true) :
    isspace c = false ∧ c ≠ '-' ∧ c ≠ '+' := by
  simp only [isdigit, Bool.and_eq_true, decide_eq_true_eq] at h
  refine ⟨?_, ?_, ?_⟩
  · simp only [isspace, Bool.or_eq_false_iff, decide_eq_false_iff_not]
    refine ⟨⟨⟨⟨⟨?_, ?_⟩, ?_⟩, ?_⟩, ?_⟩, ?_⟩ <;>
    · intro hc
      rw [hc] at h
      revert h
      decide
  · intro hc
    rw [hc] at h
    revert h
    decide
  · intro hc
    rw [hc] at h
    revert h
    decide

theorem clampLong_of_mem (longBits : Nat) (n : Int)
    (hn : longMin longBits ≤ n ∧ n ≤ longMax longBits) : clampLong longBits n = n := by
  unfold clampLong
  rw [if_neg (by omega), if_neg (by omega)]

/-- Scanning the base-10 literal of an integer in the range of `long` converts
one item and stores the integer. -/
theorem sscanf_ld_decimal (longBits : Nat) (n old : Int)
    (hn : longMin longBits ≤ n ∧ n ≤ longMax longBits) :
    sscanf_ld longBits (decimal n) old = (1, n) := by
  have hne := toDigits_ne_nil n.natAbs
  have hdig := toDigits_isdigit n.natAbs
  have hval := scanDigits_toDigits n.natAbs
  unfold decimal
  cases hD : Nat.toDigits 10 n.natAbs with
  | nil => exact absurd hD hne
  | cons d ds =>
    rw [hD] at hdig hval
    have hd : isdigit d = true := hdig d (by simp)
    obtain ⟨hsp, hminus, hplus⟩ := isdigit_not_special d hd
    by_cases hneg : n < 0
    · rw [if_pos hneg]
      have hv : (-(scanDigits 0 (d :: ds) : Int)) = n := by rw [hval]; omega
      simp only [sscanf_ld, List.dropWhile, show isspace '-' = false from by decide, if_true,
        hd, hv, clampLong_of_mem longBits n hn]
    · rw [if_neg hneg]
      have hv : ((scanDigits 0 (d :: ds) : Nat) : Int) = n := by rw [hval]; omega
      simp only [sscanf_ld, List.dropWhile, hsp, hminus, hplus, if_false, hd, if_true, hv,
        clampLong_of_mem longBits n hn]

/-- The literal `decimal n` is the text Lean prints for `n`. -/
theorem decimal_eq_toString (n : Int) : decimal n = (toString n).toList := by
  unfold decimal
  cases n with
  | ofNat m =>
    have hm : ¬ (Int.ofNat m < 0) := by simp
    rw [if_neg hm]
    rfl
  | negSucc m =>
    rw [if_pos (Int.negSucc_lt_zero m)]
    rfl

theorem decimal_ne_nil (n : Int) : decimal n ≠ [] := by
  unfold decimal
  split
  · simp
  · exact toDigits_ne_nil _

theorem decimal_length (longBits : Nat) (n : Int) (hw : longBits ≤ 64)
    (hn : longMin longBits ≤ n ∧ n ≤ longMax longBits) : (decimal n).length ≤ 21 := by
  have hpow : (2 : Int) ^ (longBits - 1) ≤ 2 ^ 63 :=
    pow_le_pow_right₀ (by norm_num) (by omega)
  have habs : n.natAbs < 10 ^ 20 := by
    unfold longMin longMax at hn
    have h63 : ((2 : Int) ^ 63) < 10 ^ 20 := by norm_num
    omega
  have hlen := toDigits_length_le n.natAbs 20 habs (by decide)
  unfold decimal
  split
  · simp only [List.length_cons]; omega
  · omega

theorem truncated_128 (v : List Char) : truncated 128 v = v.take 127 := by
  unfold truncated
  split
  · rw [List.take_of_length_le (by omega)]
  · rfl

theorem readStr_cells_nul (s : List Char) (rest : List Cell) :
    readStr (cells s ++ Cell.nul :: rest) = some s := by
  induction s with
  | nil => rfl
  | cons c cs ih =>
    show (match readStr (cells cs ++ Cell.nul :: rest) with
      | none => none
      | some s => some (c :: s)) = some (c :: cs)
    rw [ih]

/-- With a non-empty resolved text the local array `text[128]` holds, after
`envGetConfigParam`, the first 127 characters of the text and a terminator. -/
theorem envGetConfigParam_text (env : Env) (p : ENV_PARAM) (junk : Nat → Cell)
    (h : resolved env p ≠ []) :
    ∃ rest, envGetConfigParam env p 128 (localArray 128 junk) =
      some (Ptr.pBuf, cells ((resolved env p).take 127) ++ Cell.nul :: rest) := by
  have hlen := length_localArray 128 junk
  rw [← truncated_128]
  unfold resolved at h
  unfold envGetConfigParam truncated resolved
  generalize (match getenv env p.name with | none => p.dflt | some v => v) = v at h ⊢
  generalize localArray 128 junk = pBuf at hlen ⊢
  have hpos : 0 < v.length := List.length_pos.mpr h
  have h0 : ¬ strlen v ≤ 0 := by unfold strlen; omega
  simp only [h0, if_false]
  by_cases hlt : (v.length : Int) < 128
  · have hfit : v.length + 1 ≤ pBuf.length := by omega
    simp only [strlen, hlt, if_true]
    simp only [strcpy, strlen, hfit, if_true]
    exact ⟨_, rfl⟩
  · have hnn : ¬ (128 : Int) - 1 < 0 := by omega
    simp only [strlen, hlt, hnn, if_false]
    have hn : ((128 : Int) - 1).toNat ≤ pBuf.length := by omega
    have hs : ((128 : Int) - 1).toNat ≤ v.length := by omega
    rw [strncpy_long pBuf v _ hn hs]
    simp only []
    have hpre : (cells (v.take ((128 : Int) - 1).toNat)).length = ((128 : Int) - 1).toNat := by
      rw [length_cells, List.length_take]; omega
    rw [poke_at_end _ pBuf _ hpre (by omega)]
    exact ⟨_, rfl⟩

/-- C5: for a `long` of at most 64 bits and every integer `n` in its range,
when the parameter's resolved text (the value bound in the environment, else
the default) is the base-10 literal of `n`, `envGetLongConfigParam` returns 0,
stores `n` in the caller's `long` and prints nothing. -/
theorem envGetLongConfigParam_literal (longBits : Nat) (env : Env) (p : ENV_PARAM)
    (pLong : Int) (junk : Nat → Cell) (n : Int) (hw : longBits ≤ 64)
    (hn : longMin longBits ≤ n ∧ n ≤ longMax longBits)
    (hres : resolved env p = decimal n) :
    envGetLongConfigParam longBits env p pLong junk = some (0, n, some []) := by
  obtain ⟨b, hb, hc⟩ := envGetConfigParam_nonempty env p 128 (localArray 128 junk)
    (by decide) (by rw [length_localArray]; decide) (by rw [hres]; exact decimal_ne_nil n)
  have hlen := decimal_length longBits n hw hn
  have htr : truncated 128 (decimal n) = decimal n := by
    unfold truncated
    rw [if_pos (by omega)]
  unfold envGetLongConfigParam
  rw [hb]
  simp only [hc, hres, htr, sscanf_ld_decimal longBits n pLong hn, if_true]

/-- C5, witness: the text `42` in the environment yields 42 for a 64-bit
`long`. -/
theorem envGetLongConfigParam_literal_witness :
    resolved (bindEnv noEnv ['N'] ['4', '2']) ⟨['N'], []⟩ = decimal 42 ∧
      envGetLongConfigParam 64 (bindEnv noEnv ['N'] ['4', '2']) ⟨['N'], []⟩ 7
        (fun _ => Cell.ch 'z') = some (0, 42, some []) :=
  ⟨by decide, envGetLongConfigParam_literal 64 (bindEnv noEnv ['N'] ['4', '2']) ⟨['N'], []⟩ 7
    (fun _ => Cell.ch 'z') 42 (by decide) (by decide) (by decide)⟩

theorem dropWhile_append_of_all (ws l : List Char) (hws : ∀ x ∈ ws, isspace x = true) :
    (ws ++ l).dropWhile isspace = l.dropWhile isspace := by
  induction ws with
  | nil => rfl
  | cons w rest ih =>
    have hw : isspace w = true := hws w (by simp)
    simp only [List.cons_append, List.dropWhile, hw]
    exact ih (fun x hx => hws x (by simp [hx]))

/-- Without an integer at its front, a text makes `sscanf` convert nothing
and leave the caller's `long` alone. -/
theorem sscanf_ld_no_integer (longBits : Nat) (t : List Char) (old : Int)
    (h : ¬ BeginsWithInteger t) :
    (sscanf_ld longBits t old).1 ≠ 1 ∧ (sscanf_ld longBits t old).2 = old := by
  have hsplit := List.takeWhile_append_dropWhile isspace t
  have hws : ∀ x ∈ t.takeWhile isspace, isspace x = true :=
    fun x hx => List.mem_takeWhile_imp hx
  unfold sscanf_ld
  cases hD : t.dropWhile isspace with
  | nil => constructor <;> simp
  | cons c cs =>
    rw [hD] at hsplit
    simp only []
    by_cases hm : c = '-'
    · subst hm
      rw [if_pos rfl]
      cases cs with
      | nil => constructor <;> simp
      | cons d ds =>
        by_cases hd : isdigit d = true
        · exact absurd ⟨t.takeWhile isspace, ['-'], d, ds, hsplit.symm, hws,
            Or.inr (Or.inr rfl), hd⟩ h
        · constructor <;> simp [hd]
    · rw [if_neg hm]
      by_cases hp : c = '+'
      · subst hp
        rw [if_pos rfl]
        cases cs with
        | nil => constructor <;> simp
        | cons d ds =>
          by_cases hd : isdigit d = true
          · exact absurd ⟨t.takeWhile isspace, ['+'], d, ds, hsplit.symm, hws,
              Or.inr (Or.inl rfl), hd⟩ h
          · constructor <;> simp [hd]
      · rw [if_neg hp]
        by_cases hd : isdigit c = true
        · exact absurd ⟨t.takeWhile isspace, [], c, cs, hsplit.symm, hws,
            Or.inl rfl, hd⟩ h
        · constructor <;> simp [hd]

/-- With an integer at its front, a text makes `sscanf` convert one item. -/
theorem sscanf_ld_integer (longBits : Nat) (t : List Char) (old : Int)
    (h : BeginsWithInteger t) : (sscanf_ld longBits t old).1 = 1 := by
  obtain ⟨ws, sign, d, rest, heq, hws, hsign, hd⟩ := h
  obtain ⟨hsp, hminus, hplus⟩ := isdigit_not_special d hd
  have hdrop : sscanf_ld longBits t old = sscanf_ld longBits (sign ++ d :: rest) old := by
    unfold sscanf_ld
    rw [heq, dropWhile_append_of_all ws _ hws]
  rw [hdrop]
  rcases hsign with rfl | rfl | rfl
  · show (sscanf_ld longBits (d :: rest) old).1 = 1
    simp only [sscanf_ld, List.dropWhile, hsp, hminus, hplus, if_false, hd, if_true]
  · show (sscanf_ld longBits ('+' :: d :: rest) old).1 = 1
    simp only [sscanf_ld, List.dropWhile, show isspace '+' = false from by decide,
      show ¬ ('+' = '-') from by decide, if_false, if_true, hd]
  · show (sscanf_ld longBits ('-' :: d :: rest) old).1 = 1
    simp only [sscanf_ld, List.dropWhile, show isspace '-' = false from by decide,
      if_true, hd]

/-- A text whose first character is not white space, a sign or a digit does
not begin with an integer. -/
theorem not_beginsWithInteger_of_head (c : Char) (cs : List Char)
    (hsp : isspace c = false) (hd : isdigit c = false) (hm : c ≠ '-') (hp : c ≠ '+') :
    ¬ BeginsWithInteger (c :: cs) := by
  rintro ⟨ws, sign, d, rest, heq, hws, hsign, hdig⟩
  cases ws with
  | cons x xs =>
    simp only [List.cons_append, List.cons.injEq] at heq
    have := hws x (by simp)
    rw [← heq.1, hsp] at this
    exact Bool.noConfusion this
  | nil =>
    rcases hsign with rfl | rfl | rfl
    · simp only [List.nil_append, List.cons.injEq] at heq
      rw [← heq.1, hd] at hdig
      exact Bool.noConfusion hdig
    · simp only [List.nil_append, List.cons_append, List.cons.injEq] at heq
      exact hp heq.1
    · simp only [List.nil_append, List.cons_append, List.cons.injEq] at heq
      exact hm heq.1

/-- C6 (amended): `envGetLongConfigParam` returns -1 and leaves the caller's
`long` unmodified whenever the parameter's resolved text is empty (no value)
or its first 127 characters do not begin, after optional white space, with an
optional sign and a decimal digit; in every other case, so also when other
characters follow the digits, it returns 0. -/
theorem envGetLongConfigParam_failure (longBits : Nat) (env : Env) (p : ENV_PARAM)
    (pLong : Int) (junk : Nat → Cell) :
    (resolved env p = [] ∨ ¬ BeginsWithInteger ((resolved env p).take 127) →
      (envGetLongConfigParam longBits env p pLong junk).map (fun r => (r.1, r.2.1)) =
        some (-1, pLong)) ∧
    (resolved env p ≠ [] ∧ BeginsWithInteger ((resolved env p).take 127) →
      (envGetLongConfigParam longBits env p pLong junk).map (fun r => r.1) = some 0) := by
  constructor
  · intro h
    unfold envGetLongConfigParam
    by_cases he : resolved env p = []
    · rw [envGetConfigParam_empty env p 128 _ he]
      rfl
    · have hno : ¬ BeginsWithInteger ((resolved env p).take 127) := h.resolve_left he
      obtain ⟨rest, hb⟩ := envGetConfigParam_text env p junk he
      obtain ⟨h1, h2⟩ := sscanf_ld_no_integer longBits _ pLong hno
      rw [hb]
      simp only [cstr_cells_nul, h1, h2, if_false, Option.map]
  · rintro ⟨he, hyes⟩
    unfold envGetLongConfigParam
    obtain ⟨rest, hb⟩ := envGetConfigParam_text env p junk he
    rw [hb]
    simp only [cstr_cells_nul, sscanf_ld_integer longBits _ pLong hyes, if_true, Option.map]

/-- C6, witness: the default `abc` is rejected, the default `42abc` is not. -/
theorem envGetLongConfigParam_failure_witness :
    (envGetLongConfigParam 64 noEnv ⟨['N'], ['a', 'b', 'c']⟩ 7 (fun _ => Cell.ch 'z')).map
        (fun r => (r.1, r.2.1)) = some (-1, 7) ∧
      (envGetLongConfigParam 64 noEnv ⟨['N'], ['4', '2', 'a', 'b', 'c']⟩ 7
        (fun _ => Cell.ch 'z')).map (fun r => r.1) = some 0 :=
  ⟨(envGetLongConfigParam_failure 64 noEnv ⟨['N'], ['a', 'b', 'c']⟩ 7
      (fun _ => Cell.ch 'z')).1
      (Or.inr (not_beginsWithInteger_of_head 'a' ['b', 'c'] (by decide) (by decide)
        (by decide) (by decide))),
    (envGetLongConfigParam_failure 64 noEnv ⟨['N'], ['4', '2', 'a', 'b', 'c']⟩ 7
      (fun _ => Cell.ch 'z')).2
      ⟨by decide, [], [], '4', ['2', 'a', 'b', 'c'], rfl, by simp, Or.inl rfl, by decide⟩⟩

/-- C6, counterexample: the text `42abc`, digits followed by other characters,
is accepted: the routine returns 0, stores 42 and prints nothing. -/
theorem envGetLongConfigParam_failure_counterexample :
    envGetLongConfigParam 64 noEnv ⟨['N'], ['4', '2', 'a', 'b', 'c']⟩ 7 (fun _ => Cell.ch 'z') =
      some (0, 42, some []) := by
  decide

/-! ## `envGetInetAddrConfigParam` -/

/-- A run of decimal digits followed by a dot or by nothing is read whole. -/
theorem scanBase_digits (L rest : List Char) (hL : ∀ c ∈ L, isdigit c = true)
    (hrest : rest = [] ∨ ∃ r, rest = '.' :: r) :
    ∀ acc, scanBase 10 acc (L ++ rest) =
      (L.foldl (fun a c => a * 10 + digitVal c) acc, rest) := by
  induction L with
  | nil =>
    intro acc
    rcases hrest with rfl | ⟨r, rfl⟩
    · rfl
    · simp [scanBase, isxdigit, isdigit]
  | cons c cs ih =>
    intro acc
    have hc : isdigit c = true := hL c (by simp)
    have hx : isxdigit c = true := by simp [isxdigit, hc]
    have hv : hexVal c = digitVal c := by simp [hexVal, digitVal, hc]
    have hlt : digitVal c < 10 := by
      simp only [isdigit, Bool.and_eq_true, decide_eq_true_eq] at hc
      unfold digitVal
      omega
    simp only [List.cons_append, scanBase, hx, hv, hlt, decide_True, Bool.and_self, if_true,
      List.foldl]
    exact ih (fun x hx => hL x (by simp [hx])) _

/-- A number written in decimal digits, followed by a dot or by nothing, is
read back as itself. -/
theorem scanNumber_toDigits (a : Nat) (rest : List Char)
    (hrest : rest = [] ∨ ∃ r, rest = '.' :: r) :
    scanNumber (Nat.toDigits 10 a ++ rest) = (a, rest) := by
  rcases Nat.eq_zero_or_pos a with h0 | hpos
  · rw [h0]
    rcases hrest with rfl | ⟨r, rfl⟩
    · decide
    · cases r with
      | nil => decide
      | cons h t =>
        show scanNumber ('0' :: '.' :: h :: t) = (0, '.' :: h :: t)
        simp [scanNumber, scanBase, isxdigit, isdigit, hexVal]
  · have hhead := toDigits_head a hpos
    have hval := toDigits_foldl a 0
    have hdig := toDigits_isdigit a
    cases hD : Nat.toDigits 10 a with
    | nil => exact absurd hD (toDigits_ne_nil a)
    | cons c cs =>
      rw [hD] at hhead hval hdig
      have hc : c ≠ '0' := by
        intro h
        exact hhead (by rw [h]; rfl)
      have hscan := scanBase_digits (c :: cs) rest hdig hrest 0
      rw [hval] at hscan
      simp only [Nat.zero_mul, Nat.zero_add] at hscan
      rw [← hscan]
      simp only [scanNumber, List.cons_append, hc, if_false]

theorem toDigits_head_isdigit (a : Nat) (rest : List Char) :
    ∃ c cs, Nat.toDigits 10 a ++ rest = c :: cs ∧ isdigit c = true := by
  cases hD : Nat.toDigits 10 a with
  | nil => exact absurd hD (toDigits_ne_nil a)
  | cons c cs =>
    exact ⟨c, cs ++ rest, rfl, toDigits_isdigit a c (by rw [hD]; simp)⟩

/-- One round of `inet_aton` on a decimal octet followed by a dot. -/
theorem atonParts_dot (k : Nat) (parts : List Nat) (a : Nat) (rest : List Char)
    (ha : a < 256) (hp : parts.length ≤ 2) :
    atonParts (k + 1) parts (Nat.toDigits 10 a ++ '.' :: rest) =
      atonParts k (parts ++ [a]) rest := by
  obtain ⟨c, cs, hs, hc⟩ := toDigits_head_isdigit a ('.' :: rest)
  have hscan := scanNumber_toDigits a ('.' :: rest) (Or.inr ⟨rest, rfl⟩)
  rw [hs] at hscan
  rw [hs]
  have h1 : ¬ (4294967295 < a) := by omega
  have h2 : ¬ (2 < parts.length ∨ 255 < a) := by omega
  simp only [atonParts, hc, if_true, hscan, h1, h2, if_false]

/-- The last round of `inet_aton` on a decimal number that ends the input. -/
theorem atonParts_end (k : Nat) (parts : List Nat) (d : Nat) (hd : d < 256) :
    atonParts (k + 1) parts (Nat.toDigits 10 d) = atonFinish parts d := by
  obtain ⟨c, cs, hs, hc⟩ := toDigits_head_isdigit d []
  have hscan := scanNumber_toDigits d [] (Or.inl rfl)
  rw [List.append_nil] at hs hscan
  rw [hs] at hscan
  rw [hs]
  have h1 : ¬ (4294967295 < d) := by omega
  simp only [atonParts, hc, if_true, hscan, h1, if_false]

/-- The address `inet_addr` reads from the dotted-quad text of four octets. -/
theorem inet_aton_dottedQuad (a b c d : Nat) (ha : a < 256) (hb : b < 256) (hc : c < 256)
    (hd : d < 256) :
    inet_aton (dottedQuad a b c d) = some (a * 2 ^ 24 + b * 2 ^ 16 + c * 2 ^ 8 + d) := by
  unfold inet_aton dottedQuad
  rw [atonParts_dot 3 [] a _ ha (by simp), atonParts_dot 2 _ b _ hb (by simp),
    atonParts_dot 1 _ c _ hc (by simp), atonParts_end 0 _ d hd]
  have h1 : d ≤ 255 := by omega
  simp only [List.nil_append, List.cons_append, atonFinish, h1, if_true]

theorem dottedQuad_ne_nil (a b c d : Nat) : dottedQuad a b c d ≠ [] := by
  unfold dottedQuad
  intro h
  have := congrArg List.length h
  simp at this

theorem dottedQuad_length (a b c d : Nat) (ha : a < 256) (hb : b < 256) (hc : c < 256)
    (hd : d < 256) : (dottedQuad a b c d).length ≤ 15 := by
  have h1 := toDigits_length_le a 3 (by omega) (by decide)
  have h2 := toDigits_length_le b 3 (by omega) (by decide)
  have h3 := toDigits_length_le c 3 (by omega) (by decide)
  have h4 := toDigits_length_le d 3 (by omega) (by decide)
  unfold dottedQuad
  simp only [List.length_append, List.length_cons]
  omega

/-- The bytes of an address in the order of the host. -/
theorem htonl_octets (littleEndian : Bool) (a b c d : Nat) (ha : a < 256) (hb : b < 256)
    (hc : c < 256) (hd : d < 256) :
    htonl littleEndian (a * 2 ^ 24 + b * 2 ^ 16 + c * 2 ^ 8 + d) =
      if littleEndian then d * 2 ^ 24 + c * 2 ^ 16 + b * 2 ^ 8 + a
      else a * 2 ^ 24 + b * 2 ^ 16 + c * 2 ^ 8 + d := by
  unfold htonl
  cases littleEndian with
  | false => simp only [Bool.false_eq_true, if_false]
  | true =>
    simp only [if_true]
    norm_num
    omega

/-- A value in the range of a 32-bit `int` is unchanged in a `long` of at least
32 bits. -/
theorem toLong_of_int (longBits : Nat) (i : Int) (hw : 32 ≤ longBits)
    (hi : -(2 ^ 31 : Int) ≤ i ∧ i < 2 ^ 31) : toLong longBits i = i := by
  unfold toLong
  have hp : (2 : Int) ^ 31 ≤ 2 ^ (longBits - 1) := pow_le_pow_right₀ (by norm_num) (by omega)
  have h2 : (2 : Int) ^ longBits = 2 * 2 ^ (longBits - 1) := by
    rw [← pow_succ']
    congr 1
    omega
  rw [Int.emod_eq_of_lt (by omega) (by omega)]
  omega

/-- The status the routine tests, for a 32-bit result of `inet_addr`: it is -1
for the all-ones value only, and the address stored from it is the result. -/
theorem status_spec (longBits x : Nat) (hw : 32 ≤ longBits) (hx : x < 2 ^ 32) :
    (toLong longBits (toInt x) = -1 ↔ x = 2 ^ 32 - 1) ∧
      toAddr (toLong longBits (toInt x)) = x := by
  have hrange : -(2 ^ 31 : Int) ≤ toInt x ∧ toInt x < 2 ^ 31 := by
    unfold toInt
    norm_num at hx ⊢
    rw [Nat.mod_eq_of_lt hx]
    split <;> constructor <;> omega
  rw [toLong_of_int longBits _ hw hrange]
  unfold toInt toAddr
  norm_num at hx ⊢
  rw [Nat.mod_eq_of_lt hx]
  split <;> constructor <;> omega

theorem atonFinish_lt (parts : List Nat) (val v : Nat) (hparts : ∀ x ∈ parts, x ≤ 255)
    (h : atonFinish parts val = some v) : v < 2 ^ 32 := by
  unfold atonFinish at h
  split at h
  · split at h
    · simp only [Option.some.injEq] at h
      omega
    · exact Option.noConfusion h
  · rename_i a
    have ha := hparts a (by simp)
    split at h
    · simp only [Option.some.injEq] at h
      omega
    · exact Option.noConfusion h
  · rename_i a b
    have ha := hparts a (by simp)
    have hb := hparts b (by simp)
    split at h
    · simp only [Option.some.injEq] at h
      omega
    · exact Option.noConfusion h
  · rename_i a b c
    have ha := hparts a (by simp)
    have hb := hparts b (by simp)
    have hc := hparts c (by simp)
    split at h
    · simp only [Option.some.injEq] at h
      omega
    · exact Option.noConfusion h
  · exact Option.noConfusion h

theorem atonParts_lt (k : Nat) :
    ∀ (parts : List Nat) (s : List Char) (v : Nat), (∀ x ∈ parts, x ≤ 255) →
      atonParts k parts s = some v → v < 2 ^ 32 := by
  induction k with
  | zero =>
    intro parts s v _ h
    exact Option.noConfusion h
  | succ k ih =>
    intro parts s v hparts h
    cases s with
    | nil => exact Option.noConfusion h
    | cons c cs =>
      simp only [atonParts] at h
      split at h
      · split at h
        · exact Option.noConfusion h
        · split at h
          · exact atonFinish_lt parts _ v hparts h
          · split at h
            · split at h
              · exact Option.noConfusion h
              · rename_i hle
                refine ih _ _ v ?_ h
                intro x hx
                rw [List.mem_append, List.mem_singleton] at hx
                rcases hx with hx | hx
                · exact hparts x hx
                · rw [hx]
                  omega
            · split at h
              · exact atonFinish_lt parts _ v hparts h
              · exact Option.noConfusion h
      · exact Option.noConfusion h

/-- The result of `inet_addr` has 32 bits. -/
theorem inet_addr_lt (littleEndian : Bool) (s : List Char) :
    inet_addr littleEndian s < 2 ^ 32 := by
  unfold inet_addr
  cases h : inet_aton s with
  | none => simp [INADDR_NONE]
  | some v =>
    have hv := atonParts_lt 4 [] s v (by simp) h
    simp only [htonl]
    split
    · norm_num at hv ⊢
      omega
    · exact hv

/-- C7 (amended): for a `long` of at least 32 bits and four octets `a`, `b`,
`c`, `d` in 0..255, when the parameter's resolved text is the dotted-quad text
`a.b.c.d`: if the octets are not all 255, `envGetInetAddrConfigParam` returns
0, stores in `s_addr` the 32-bit value whose bytes in memory are `a`, `b`, `c`,
`d`, and prints nothing; for `255.255.255.255`, whose address is the failure
value of `inet_addr`, it returns -1, leaves `s_addr` unmodified and prints the
message. -/
theorem envGetInetAddrConfigParam_dottedQuad (longBits : Nat) (littleEndian : Bool)
    (env : Env) (p : ENV_PARAM) (pAddr : Nat) (junk : Nat → Cell) (a b c d : Nat)
    (hw : 32 ≤ longBits)
    (ha : a < 256) (hb : b < 256) (hc : c < 256) (hd : d < 256)
    (hres : resolved env p = dottedQuad a b c d) :
    envGetInetAddrConfigParam longBits littleEndian env p pAddr junk =
      if a = 255 ∧ b = 255 ∧ c = 255 ∧ d = 255 then
        some (-1, pAddr, some (illegalValueMsg p.name (dottedQuad a b c d)))
      else
        some (0,
          if littleEndian then d * 2 ^ 24 + c * 2 ^ 16 + b * 2 ^ 8 + a
          else a * 2 ^ 24 + b * 2 ^ 16 + c * 2 ^ 8 + d, some []) := by
  obtain ⟨rest, hbuf⟩ := envGetConfigParam_text env p junk
    (by rw [hres]; exact dottedQuad_ne_nil a b c d)
  have hlen := dottedQuad_length a b c d ha hb hc hd
  have htake : (dottedQuad a b c d).take 127 = dottedQuad a b c d :=
    List.take_of_length_le (by omega)
  rw [hres, htake] at hbuf
  have haddr : inet_addr littleEndian (dottedQuad a b c d) =
      if littleEndian then d * 2 ^ 24 + c * 2 ^ 16 + b * 2 ^ 8 + a
      else a * 2 ^ 24 + b * 2 ^ 16 + c * 2 ^ 8 + d := by
    unfold inet_addr
    rw [inet_aton_dottedQuad a b c d ha hb hc hd]
    exact htonl_octets littleEndian a b c d ha hb hc hd
  obtain ⟨h1, h2⟩ := status_spec longBits _ hw (inet_addr_lt littleEndian (dottedQuad a b c d))
  unfold envGetInetAddrConfigParam
  rw [hbuf]
  simp only [cstr_cells_nul, printIllegalValue, readStr_cells_nul]
  by_cases hall : a = 255 ∧ b = 255 ∧ c = 255 ∧ d = 255
  · have hst : toLong longBits (toInt (inet_addr littleEndian (dottedQuad a b c d))) = -1 := by
      rw [h1, haddr]
      obtain ⟨rfl, rfl, rfl, rfl⟩ := hall
      split <;> norm_num
    rw [if_pos hall, if_neg (by rw [hst]; simp)]
  · have hst : toLong longBits (toInt (inet_addr littleEndian (dottedQuad a b c d))) ≠ -1 := by
      rw [Ne, h1, haddr]
      intro h
      apply hall
      split at h <;> omega
    rw [if_neg hall, if_pos hst, h2, haddr]

/-- C7, witness: `127.0.0.1` on a little-endian host with a 64-bit `long`. -/
theorem envGetInetAddrConfigParam_dottedQuad_witness :
    resolved noEnv ⟨['A'], ['1', '2', '7', '.', '0', '.', '0', '.', '1']⟩ =
        dottedQuad 127 0 0 1 ∧
      envGetInetAddrConfigParam 64 true noEnv
        ⟨['A'], ['1', '2', '7', '.', '0', '.', '0', '.', '1']⟩ 7 (fun _ => Cell.ch 'z') =
      if 127 = 255 ∧ 0 = 255 ∧ 0 = 255 ∧ 1 = 255 then
        some (-1, 7, some (illegalValueMsg ['A'] (dottedQuad 127 0 0 1)))
      else
        some (0,
          if true = true then 1 * 2 ^ 24 + 0 * 2 ^ 16 + 0 * 2 ^ 8 + 127
          else 127 * 2 ^ 24 + 0 * 2 ^ 16 + 0 * 2 ^ 8 + 1, some []) :=
  ⟨by decide, envGetInetAddrConfigParam_dottedQuad 64 true noEnv
    ⟨['A'], ['1', '2', '7', '.', '0', '.', '0', '.', '1']⟩ 7 (fun _ => Cell.ch 'z') 127 0 0 1
    (by decide) (by decide) (by decide) (by decide) (by decide) (by decide)⟩

/-- C7, counterexample: the text `255.255.255.255`, four octets in 0..255, is
rejected, with a `long` of 64 bits and with one of 32: the routine returns -1
and stores nothing. -/
theorem envGetInetAddrConfigParam_dottedQuad_counterexample :
    resolved noEnv ⟨['A'], "255.255.255.255".toList⟩ = dottedQuad 255 255 255 255 ∧
      envGetInetAddrConfigParam 64 true noEnv ⟨['A'], "255.255.255.255".toList⟩ 7
        (fun _ => Cell.ch 'z') =
      some (-1, 7, some (illegalValueMsg ['A'] "255.255.255.255".toList)) ∧
      envGetInetAddrConfigParam 32 true noEnv ⟨['A'], "255.255.255.255".toList⟩ 7
        (fun _ => Cell.ch 'z') =
      some (-1, 7, some (illegalValueMsg ['A'] "255.255.255.255".toList)) := by
  decide

/-- C8 (amended): for a `long` of at least 32 bits, `envGetInetAddrConfigParam`
returns -1 and leaves the caller's `s_addr` unmodified whenever the parameter's
resolved text is empty (no value) or `inet_addr` answers the first 127
characters of the resolved text, which is what the routine passes to it, with
its all-ones failure value; in every other case it returns 0, stores the
answer of `inet_addr` and prints nothing. -/
theorem envGetInetAddrConfigParam_failure (longBits : Nat) (littleEndian : Bool)
    (env : Env) (p : ENV_PARAM) (pAddr : Nat) (junk : Nat → Cell) (hw : 32 ≤ longBits) :
    (resolved env p = [] ∨
        inet_addr littleEndian ((resolved env p).take 127) = INADDR_NONE →
      (envGetInetAddrConfigParam longBits littleEndian env p pAddr junk).map
        (fun r => (r.1, r.2.1)) = some (-1, pAddr)) ∧
    (resolved env p ≠ [] ∧
        inet_addr littleEndian ((resolved env p).take 127) ≠ INADDR_NONE →
      envGetInetAddrConfigParam longBits littleEndian env p pAddr junk =
        some (0, inet_addr littleEndian ((resolved env p).take 127), some [])) := by
  have hspec := fun s => status_spec longBits _ hw (inet_addr_lt littleEndian s)
  constructor
  · intro h
    unfold envGetInetAddrConfigParam
    by_cases he : resolved env p = []
    · rw [envGetConfigParam_empty env p 128 _ he]
      rfl
    · have hnone := h.resolve_left he
      obtain ⟨rest, hbuf⟩ := envGetConfigParam_text env p junk he
      have hst : toLong longBits (toInt (inet_addr littleEndian ((resolved env p).take 127)))
          = -1 := by
        rw [(hspec _).1, hnone]
        rfl
      rw [hbuf]
      simp only [cstr_cells_nul, hst, ne_eq, not_true_eq_false, if_false, Option.map]
  · rintro ⟨he, hsome⟩
    unfold envGetInetAddrConfigParam
    obtain ⟨rest, hbuf⟩ := envGetConfigParam_text env p junk he
    have hst : toLong longBits (toInt (inet_addr littleEndian ((resolved env p).take 127)))
        ≠ -1 := by
      rw [Ne, (hspec _).1]
      exact hsome
    rw [hbuf]
    simp only [cstr_cells_nul]
    rw [if_pos hst, (hspec _).2]

/-- C8, witness: with a 64-bit `long` the default `abc` is rejected and the
default `127.0.0.1` is stored. -/
theorem envGetInetAddrConfigParam_failure_witness :
    (inet_addr true ((resolved noEnv ⟨['A'], ['a', 'b', 'c']⟩).take 127) = INADDR_NONE ∧
      (envGetInetAddrConfigParam 64 true noEnv ⟨['A'], ['a', 'b', 'c']⟩ 7
        (fun _ => Cell.ch 'z')).map (fun r => (r.1, r.2.1)) = some (-1, 7)) ∧
    envGetInetAddrConfigParam 64 true noEnv
        ⟨['A'], ['1', '2', '7', '.', '0', '.', '0', '.', '1']⟩ 7 (fun _ => Cell.ch 'z') =
      some (0, inet_addr true
        ((resolved noEnv ⟨['A'], ['1', '2', '7', '.', '0', '.', '0', '.', '1']⟩).take 127),
        some []) :=
  ⟨⟨by decide, (envGetInetAddrConfigParam_failure 64 true noEnv ⟨['A'], ['a', 'b', 'c']⟩ 7
      (fun _ => Cell.ch 'z') (by decide)).1 (Or.inr (by decide))⟩,
    (envGetInetAddrConfigParam_failure 64 true noEnv
      ⟨['A'], ['1', '2', '7', '.', '0', '.', '0', '.', '1']⟩ 7 (fun _ => Cell.ch 'z')
      (by decide)).2 ⟨by decide, by decide⟩⟩

/-- C8, counterexample: a resolved text of 128 characters, `127.0.0.`, 118
zeros, `1` and `x`.  It is not a dotted-quad literal and `inet_addr` answers it
with the failure value, but the routine reads only its first 127 characters
into `text[128]`, an octal spelling of `127.0.0.1`: it returns 0 and stores
that address. -/
theorem envGetInetAddrConfigParam_failure_counterexample :
    (resolved noEnv ⟨['A'], "127.0.0.".toList ++ List.replicate 118 '0' ++ ['1', 'x']⟩).length
        = 128 ∧
      inet_addr true (resolved noEnv
        ⟨['A'], "127.0.0.".toList ++ List.replicate 118 '0' ++ ['1', 'x']⟩) = INADDR_NONE ∧
      envGetInetAddrConfigParam 64 true noEnv
        ⟨['A'], "127.0.0.".toList ++ List.replicate 118 '0' ++ ['1', 'x']⟩ 7
        (fun _ => Cell.ch 'z') = some (0, 0x0100007F, some []) := by
  decide

end EnvSubr
